import Mathlib

/-!
Verification development for `src/grade_school_math/translate.py`
(the ulysse-bouchet/french-grade-school-math repository).

The file embeds the core of the script — the recursive tree translator
`translate_json_object` (lines 41-76), the semaphore-guarded leaf call
`translate` (lines 12-22), and the batch orchestrator `main` (lines 80-97) —
as executable Lean definitions, and proves or refutes the specification's
claims about them.

Modelling conventions:
* JSON values are the inductive `Json`.  Python dicts and lists are mutable
  objects; to be able to speak about object identity and in-place update
  (the code assigns `obj[key] = ...` / `obj[i] = ...` and returns the same
  `obj`), every `obj`/`arr` node carries a numeric identity `id`, playing
  the role of Python's `id()`.  Scalars (`str`, `num`, `bool`, `null`) are
  immutable in Python and carry no identity.
* The external LLM call (`llm.ainvoke`, configuration, prompt) is the
  Translation Port collaborator: an opaque fallible function
  `port : String → Except E String`.  Raised exceptions are `Except.error`.
* `asyncio.gather` returns the results of its tasks in submission order
  (never completion order); if a task raised, the gather raises.  This is
  `gatherE`.  Which of several failing tasks' exceptions surfaces depends
  on completion timing in Python; `gatherE` surfaces the first in
  submission order — the claims only depend on success/failure status and
  on the value returned on success, which agree with the code.
* Scheduling-dependent behaviour (the semaphore, completion order) is
  modelled separately by the transition system `GateStep` and by the
  completion-schedule function `applySchedule`.
-/

set_option autoImplicit false

namespace GSM

/-- JSON-like tree values manipulated by the script (parsed by `load_jsonl`,
line 34-37).  `obj`/`arr` nodes carry an object-identity tag `id`
(Python `id()`), letting the embedding express that `translate_json_object`
updates containers in place rather than building new ones. -/
inductive Json where
  | obj (id : Nat) (entries : List (String × Json))
  | arr (id : Nat) (items : List Json)
  | str (s : String)
  | num (n : Int)
  | bool (b : Bool)
  | null

/-- Lines 12-22: the semaphore-guarded Translation Port call.  At the level
of values it returns the port's translation of `text` (the `output_msg`,
collapsed to the `.content` string actually used by the callers); the
semaphore interaction is modelled by `translateEvents` and `GateStep`,
the logging collaborator is out of scope. -/
def translate {E : Type} (port : String → Except E String) (text : String) :
    Except E String :=
  port text

/-- `asyncio.gather` (used at lines 51, 67, 96): results in submission
order; an error in any task makes the whole gather fail. -/
def gatherE {E α : Type} : List (Except E α) → Except E (List α)
  | [] => Except.ok []
  | Except.ok a :: rest => (gatherE rest).map (fun as => a :: as)
  | Except.error e :: _ => Except.error e

/-- Second pass over `obj.items()` (lines 52-59): re-iterate the entries,
consuming one gathered result per `str`/`dict`/`list` entry in order
(`result_index` increments), leaving other entries untouched.  (The
patterns where results run out are unreachable: a gather returns exactly
one result per task.) -/
def reassignEntries : List (String × Json) → List Json → List (String × Json)
  | [], _ => []
  | (k, Json.str _) :: rest, r :: rs => (k, r) :: reassignEntries rest rs
  | (k, Json.obj _ _) :: rest, r :: rs => (k, r) :: reassignEntries rest rs
  | (k, Json.arr _ _) :: rest, r :: rs => (k, r) :: reassignEntries rest rs
  | (k, v) :: rest, rs => (k, v) :: reassignEntries rest rs

/-- Second pass over `range(len(obj))` for lists (lines 68-75). -/
def reassignItems : List Json → List Json → List Json
  | [], _ => []
  | Json.str _ :: rest, r :: rs => r :: reassignItems rest rs
  | Json.obj _ _ :: rest, r :: rs => r :: reassignItems rest rs
  | Json.arr _ _ :: rest, r :: rs => r :: reassignItems rest rs
  | v :: rest, rs => v :: reassignItems rest rs

mutual

/-- Lines 41-76, `translate_json_object`: for a dict (resp. list), launch one
sub-task per `str` / `dict` / `list` member in iteration order (first pass,
lines 43-50 / 61-66), gather them (line 51 / 67), then re-iterate the
container assigning each gathered result to its member in order (second
pass, lines 52-59 / 68-75); any other value is returned unchanged
(line 76 without a matching branch).  The result node keeps the input
node's identity because the code mutates `obj` in place and returns it. -/
def translate_json_object {E : Type} (port : String → Except E String) :
    Json → Except E Json
  | Json.obj i es =>
      (gatherE (entryTasks port es)).map (fun rs => Json.obj i (reassignEntries es rs))
  | Json.arr i xs =>
      (gatherE (itemTasks port xs)).map (fun rs => Json.arr i (reassignItems xs rs))
  | t => Except.ok t

/-- First pass over `obj.items()` (lines 43-50): one task per `str` value
(a `translate` call, its message collapsed to its string content) and per
`dict`/`list` value (a recursive `translate_json_object` call); other
values get no task. -/
def entryTasks {E : Type} (port : String → Except E String) :
    List (String × Json) → List (Except E Json)
  | [] => []
  | (_, Json.str s) :: rest =>
      (translate port s).map Json.str :: entryTasks port rest
  | (_, Json.obj i es) :: rest =>
      translate_json_object port (Json.obj i es) :: entryTasks port rest
  | (_, Json.arr i xs) :: rest =>
      translate_json_object port (Json.arr i xs) :: entryTasks port rest
  | _ :: rest => entryTasks port rest

/-- First pass over `enumerate(obj)` for lists (lines 61-66). -/
def itemTasks {E : Type} (port : String → Except E String) :
    List Json → List (Except E Json)
  | [] => []
  | Json.str s :: rest =>
      (translate port s).map Json.str :: itemTasks port rest
  | Json.obj i es :: rest =>
      translate_json_object port (Json.obj i es) :: itemTasks port rest
  | Json.arr i xs :: rest =>
      translate_json_object port (Json.arr i xs) :: itemTasks port rest
  | _ :: rest => itemTasks port rest

end

/-- Lines 84-88 of `main`: `-1` means all records, otherwise
`min(limit, len(json_objects))`. -/
def effective_limit (limit : Int) (n : Nat) : Int :=
  if limit = -1 then (n : Int) else min limit (n : Int)

/-- The records actually submitted by the loop at lines 91-94:
`json_objects[i]` for `i in range(effective_limit)`.  A negative
`effective_limit` yields an empty `range`, matching `Int.toNat`. -/
def selectedRecords (json_objects : List Json) (limit : Int) : List Json :=
  json_objects.take (effective_limit limit json_objects.length).toNat

/-- Lines 80-97, `main`: build one `translate_json_object` task per selected
record (sharing the single semaphore of size `tasks` created at line 81,
modelled by `GateStep`), gather them (line 96) and return the results in
input order.  The `tasks` parameter only constrains scheduling, not the
returned values. -/
def main {E : Type} (port : String → Except E String) (json_objects : List Json)
    (tasks : Nat) (limit : Int) : Except E (List Json) :=
  gatherE ((selectedRecords json_objects limit).map (translate_json_object port))

/-- Lines 183-191 of the script body: `save_to_jsonl` (line 191) runs only if
`asyncio.run(main(...))` (line 185) returned normally; if it raised, the
script dies and nothing is written.  `none` models "no output persisted". -/
def savedOutput {E : Type} (port : String → Except E String)
    (json_objects : List Json) (tasks : Nat) (limit : Int) : Option (List Json) :=
  (main port json_objects tasks limit).toOption

/-! ### Gate and port events

Which semaphore and port interactions a tree's translation generates,
listed per sub-task in submission order. -/

/-- One interaction with the shared semaphore or the Translation Port. -/
inductive PortEvent where
  | acquire
  | call (text : String)
  | release
deriving DecidableEq

/-- Lines 12-22: the events of one `translate` call.  `async with semaphore`
acquires on entry and releases on every exit (also when `llm.ainvoke`
raises); the port is called once, on the leaf's text. -/
def translateEvents (text : String) : List PortEvent :=
  [PortEvent.acquire, PortEvent.call text, PortEvent.release]

mutual

/-- The gate/port events generated by `translate_json_object` on a value,
concatenated per sub-task in submission order (lines 43-50, 61-66): a
`translate` call per `str` member, a recursive traversal per `dict`/`list`
member, nothing for any other member, and nothing at all for a
non-container argument (line 76). -/
def traversalEvents : Json → List PortEvent
  | Json.obj _ es => entryEvents es
  | Json.arr _ xs => itemEvents xs
  | _ => []

/-- Events of the tasks launched for a dict's entries (lines 43-50). -/
def entryEvents : List (String × Json) → List PortEvent
  | [] => []
  | (_, Json.str s) :: rest => translateEvents s ++ entryEvents rest
  | (_, Json.obj i es) :: rest => traversalEvents (Json.obj i es) ++ entryEvents rest
  | (_, Json.arr i xs) :: rest => traversalEvents (Json.arr i xs) ++ entryEvents rest
  | _ :: rest => entryEvents rest

/-- Events of the tasks launched for a list's items (lines 61-66). -/
def itemEvents : List Json → List PortEvent
  | [] => []
  | Json.str s :: rest => translateEvents s ++ itemEvents rest
  | Json.obj i es :: rest => traversalEvents (Json.obj i es) ++ itemEvents rest
  | Json.arr i xs :: rest => traversalEvents (Json.arr i xs) ++ itemEvents rest
  | _ :: rest => itemEvents rest

end

mutual

/-- The texts dispatched to the Translation Port by a traversal, in
submission order: the `str` members of containers, recursively. -/
def leafTexts : Json → List String
  | Json.obj _ es => leafTextsE es
  | Json.arr _ xs => leafTextsI xs
  | _ => []

/-- Dispatched texts of a dict's entries. -/
def leafTextsE : List (String × Json) → List String
  | [] => []
  | (_, Json.str s) :: rest => s :: leafTextsE rest
  | (_, Json.obj i es) :: rest => leafTexts (Json.obj i es) ++ leafTextsE rest
  | (_, Json.arr i xs) :: rest => leafTexts (Json.arr i xs) ++ leafTextsE rest
  | _ :: rest => leafTextsE rest

/-- Dispatched texts of a list's items. -/
def leafTextsI : List Json → List String
  | [] => []
  | Json.str s :: rest => s :: leafTextsI rest
  | Json.obj i es :: rest => leafTexts (Json.obj i es) ++ leafTextsI rest
  | Json.arr i xs :: rest => leafTexts (Json.arr i xs) ++ leafTextsI rest
  | _ :: rest => leafTextsI rest

end

/-- All gate/port events of one batch run: the selected records' traversal
events (line 91-96 launches one traversal per selected record). -/
def batchEvents (json_objects : List Json) (limit : Int) : List PortEvent :=
  ((selectedRecords json_objects limit).map traversalEvents).flatten

/-! ### Completion-order model of `asyncio.gather`

`asyncio.gather` stores each sub-task's result in the slot of the task's
submission index, whatever order the event loop completes the tasks in.
`applySchedule` runs the leaf sub-tasks of a gathered sequence of string
leaves under an arbitrary completion order `σ` over a stub port `f`:
completing task `j` writes `f` of the `j`-th input into slot `j`. -/

/-- Complete tasks in the order listed by `σ`; each completion of task `j`
stores its own result (the stub port applied to input `j`) at slot `j`. -/
def applySchedule (f : String → String) (xs : List String) :
    List Nat → List (Option String) → List (Option String)
  | [], slots => slots
  | j :: σ, slots => applySchedule f xs σ (slots.set j (some (f (xs.getD j ""))))

/-- Run a full gather of the leaf tasks of `xs` under completion order `σ`,
starting from empty result slots. -/
def runSchedule (f : String → String) (xs : List String) (σ : List Nat) :
    List (Option String) :=
  applySchedule f xs σ (List.replicate xs.length none)

/-! ### The shared semaphore as a transition system

`main` creates a single `asyncio.Semaphore(tasks)` (line 81) and passes it
to every recursive call and every leaf `translate` (lines 93, 46, 49, 64,
66, 12), so all leaf port calls of the whole batch contend for one counter.
The system below is that counter together with the phase of every leaf
task: `start` is `semaphore.acquire()` succeeding (only possible while the
counter is positive; otherwise the task stays suspended), `finishOk` /
`finishErr` are the guarded port call returning or raising — in both cases
`async with` releases the permit on exit. -/

/-- Phase of one leaf `translate` task. -/
inductive TaskPhase where
  | pending
  | inflight
  | doneOk
  | doneErr
deriving DecidableEq

/-- Semaphore counter plus the phases of all leaf tasks of the run. -/
structure GateState where
  avail : Nat
  tasks : List TaskPhase
deriving DecidableEq

/-- Start of a run: the semaphore holds all `n` permits (line 81), all `m`
leaf tasks of the batch are pending. -/
def initGate (n m : Nat) : GateState :=
  { avail := n, tasks := List.replicate m TaskPhase.pending }

/-- One scheduler step: a pending task acquires (needs a free permit), or an
in-flight task's port call returns or raises, releasing its permit either
way (`async with`, line 13). -/
inductive GateStep : GateState → GateState → Prop where
  | start (s : GateState) (i : Nat) (h : s.tasks.get? i = some TaskPhase.pending)
      (ha : 0 < s.avail) :
      GateStep s { avail := s.avail - 1, tasks := s.tasks.set i TaskPhase.inflight }
  | finishOk (s : GateState) (i : Nat) (h : s.tasks.get? i = some TaskPhase.inflight) :
      GateStep s { avail := s.avail + 1, tasks := s.tasks.set i TaskPhase.doneOk }
  | finishErr (s : GateState) (i : Nat) (h : s.tasks.get? i = some TaskPhase.inflight) :
      GateStep s { avail := s.avail + 1, tasks := s.tasks.set i TaskPhase.doneErr }

/-- States reachable during a run with gate size `n` and `m` leaf tasks. -/
def GateReach (n m : Nat) (s : GateState) : Prop :=
  Relation.ReflTransGen GateStep (initGate n m) s

/-- Number of simultaneously in-flight port calls. -/
def inflightCount (s : GateState) : Nat :=
  s.tasks.countP (fun t => decide (t = TaskPhase.inflight))

/-! ### Structural observations on trees -/

/-- The variant (Python runtime type) of a value. -/
inductive Variant where
  | obj
  | arr
  | str
  | num
  | bool
  | null
deriving DecidableEq

/-- Which variant a value is. -/
def variant : Json → Variant
  | Json.obj _ _ => Variant.obj
  | Json.arr _ _ => Variant.arr
  | Json.str _ => Variant.str
  | Json.num _ => Variant.num
  | Json.bool _ => Variant.bool
  | Json.null => Variant.null

/-- The key list of a dict, in insertion order; `none` for non-dicts. -/
def keysOf : Json → Option (List String)
  | Json.obj _ es => some (es.map Prod.fst)
  | _ => none

/-- The length of a list; `none` for non-lists. -/
def lenOf : Json → Option Nat
  | Json.arr _ xs => some xs.length
  | _ => none

/-- Non-string scalars: numbers, booleans, null (`OpaqueScalar`). -/
def isOpaque : Json → Bool
  | Json.num _ => true
  | Json.bool _ => true
  | Json.null => true
  | _ => false

/-- Python object identity of a value: the id of a container node
(scalars are immutable and carry none). -/
def nodeId : Json → Option Nat
  | Json.obj i _ => some i
  | Json.arr i _ => some i
  | _ => none

mutual

/-- Erase leaf payloads but keep node identities, variants, keys (in order)
and lengths.  Two values with equal skeletons are the same container
objects holding the same structure; only leaf contents may differ. -/
def skeleton : Json → Json
  | Json.obj i es => Json.obj i (skeletonEntries es)
  | Json.arr i xs => Json.arr i (skeletonItems xs)
  | Json.str _ => Json.str ""
  | Json.num _ => Json.num 0
  | Json.bool _ => Json.bool true
  | Json.null => Json.null

/-- Skeletons of a dict's entries. -/
def skeletonEntries : List (String × Json) → List (String × Json)
  | [] => []
  | (k, v) :: rest => (k, skeleton v) :: skeletonEntries rest

/-- Skeletons of a list's items. -/
def skeletonItems : List Json → List Json
  | [] => []
  | v :: rest => skeleton v :: skeletonItems rest

end

mutual

/-- Forget object identities (set every container id to 0). -/
def stripIds : Json → Json
  | Json.obj _ es => Json.obj 0 (stripIdsEntries es)
  | Json.arr _ xs => Json.arr 0 (stripIdsItems xs)
  | t => t

/-- Identity-stripped entries. -/
def stripIdsEntries : List (String × Json) → List (String × Json)
  | [] => []
  | (k, v) :: rest => (k, stripIds v) :: stripIdsEntries rest

/-- Identity-stripped items. -/
def stripIdsItems : List Json → List Json
  | [] => []
  | v :: rest => stripIds v :: stripIdsItems rest

end

/-- The pure structure of a value: variants, key lists (with order) and
lengths at every position — no identities, no leaf payloads. -/
def shape (t : Json) : Json :=
  stripIds (skeleton t)

/-- One step into a tree: a dict key or a list index. -/
inductive PathStep where
  | key (k : String)
  | idx (i : Nat)

/-- The value at a position in a tree: follow dict keys and list indices. -/
def getPath : Json → List PathStep → Option Json
  | t, [] => some t
  | Json.obj _ es, PathStep.key k :: p =>
      match es.lookup k with
      | some v => getPath v p
      | none => none
  | Json.arr _ xs, PathStep.idx i :: p =>
      match xs.get? i with
      | some v => getPath v p
      | none => none
  | _, _ => none
termination_by structural _ p => p

mutual

/-- Well-formedness invariant of trees produced by `json.loads`: dict keys
are distinct at every node (a Python dict cannot hold duplicate keys). -/
def wfKeys : Json → Bool
  | Json.obj _ es => decide ((es.map Prod.fst).Nodup) && wfKeysEntries es
  | Json.arr _ xs => wfKeysItems xs
  | _ => true

/-- Well-formedness of a dict's entry values. -/
def wfKeysEntries : List (String × Json) → Bool
  | [] => true
  | (_, v) :: rest => wfKeys v && wfKeysEntries rest

/-- Well-formedness of a list's items. -/
def wfKeysItems : List Json → Bool
  | [] => true
  | v :: rest => wfKeys v && wfKeysItems rest

end

/-- How one container member relates to its translated replacement: a `str`
member is replaced by the port's translation (its task was
`translate(...)`, its message's content is the new value), a container
member by its recursive translation, any other member is untouched. -/
def childRel {E : Type} (port : String → Except E String) (v w : Json) : Prop :=
  match v with
  | Json.str s => (translate port s).map Json.str = Except.ok w
  | Json.obj i es => translate_json_object port (Json.obj i es) = Except.ok w
  | Json.arr i xs => translate_json_object port (Json.arr i xs) = Except.ok w
  | v => w = v

/-! ### Lemmas about `gatherE` -/

theorem gatherE_cons_ok {E α : Type} {x : Except E α} {l : List (Except E α)}
    {rs : List α} (h : gatherE (x :: l) = Except.ok rs) :
    ∃ a rs', x = Except.ok a ∧ gatherE l = Except.ok rs' ∧ rs = a :: rs' := by
  cases x with
  | ok a =>
      simp only [gatherE] at h
      cases hl : gatherE l with
      | ok rs' =>
          rw [hl] at h
          simp only [Except.map] at h
          exact ⟨a, rs', rfl, rfl, (Except.ok.inj h).symm⟩
      | error e =>
          rw [hl] at h
          simp [Except.map] at h
  | error e => simp [gatherE] at h

theorem gatherE_error_of_mem {E α : Type} {e : E} {l : List (Except E α)}
    (hm : Except.error e ∈ l) : ∃ e', gatherE l = Except.error e' := by
  induction l with
  | nil => cases hm
  | cons x rest ih =>
      cases hm with
      | head => exact ⟨e, rfl⟩
      | tail _ hm' =>
          cases x with
          | ok a =>
              obtain ⟨e', he'⟩ := ih hm'
              exact ⟨e', by simp [gatherE, he', Except.map]⟩
          | error e0 => exact ⟨e0, rfl⟩

theorem gatherE_ok_of_forall {E α : Type} {l : List (Except E α)}
    (h : ∀ x ∈ l, ∃ a, x = Except.ok a) : ∃ rs, gatherE l = Except.ok rs := by
  induction l with
  | nil => exact ⟨[], rfl⟩
  | cons x rest ih =>
      obtain ⟨a, ha⟩ := h x (List.mem_cons_self x rest)
      obtain ⟨rs, hrs⟩ := ih (fun y hy => h y (List.mem_cons_of_mem x hy))
      exact ⟨a :: rs, by simp [ha, gatherE, hrs, Except.map]⟩

theorem gatherE_length {E α : Type} : ∀ {l : List (Except E α)} {rs : List α},
    gatherE l = Except.ok rs → rs.length = l.length := by
  intro l
  induction l with
  | nil => intro rs h; simp only [gatherE] at h; simp [← Except.ok.inj h]
  | cons x rest ih =>
      intro rs h
      obtain ⟨a, rs', _, hrest, hcons⟩ := gatherE_cons_ok h
      subst hcons
      simp [ih hrest]

theorem gatherE_get {E α : Type} : ∀ {l : List (Except E α)} {rs : List α},
    gatherE l = Except.ok rs → ∀ (i : Nat) (h1 : i < l.length) (h2 : i < rs.length),
      l.get ⟨i, h1⟩ = Except.ok (rs.get ⟨i, h2⟩) := by
  intro l
  induction l with
  | nil => intro rs h i h1; cases h1
  | cons x rest ih =>
      intro rs h i h1 h2
      obtain ⟨a, rs', hx, hrest, hcons⟩ := gatherE_cons_ok h
      subst hcons
      cases i with
      | zero => simpa using hx
      | succ j => exact ih hrest j (by simpa using h1) (by simpa using h2)

theorem gatherE_map_ok {E α β : Type} (g : α → β) :
    ∀ l : List α, gatherE (l.map (fun x => (Except.ok (g x) : Except E β))) =
      Except.ok (l.map g) := by
  intro l
  induction l with
  | nil => rfl
  | cons x rest ih => simp [gatherE, ih, Except.map]

/-! ### The pointwise relation between a container and its rebuilt contents -/

/-- Entries of a translated dict: if the gather of the first pass's tasks
succeeded, the second pass pairs each original entry with its result —
same key, `childRel`-related value. -/
theorem entryTasks_rel {E : Type} (port : String → Except E String) :
    ∀ (es : List (String × Json)) (rs : List Json),
      gatherE (entryTasks port es) = Except.ok rs →
      List.Forall₂ (fun a b => a.1 = b.1 ∧ childRel port a.2 b.2) es
        (reassignEntries es rs) := by
  intro es
  induction es with
  | nil => intro rs _; exact List.Forall₂.nil
  | cons kv rest ih =>
      obtain ⟨k, v⟩ := kv
      intro rs h
      cases v with
      | str s =>
          simp only [entryTasks] at h
          obtain ⟨a, rs', hx, hrest, hcons⟩ := gatherE_cons_ok h
          subst hcons
          exact List.Forall₂.cons ⟨rfl, hx⟩ (ih rs' hrest)
      | obj i es2 =>
          simp only [entryTasks] at h
          obtain ⟨a, rs', hx, hrest, hcons⟩ := gatherE_cons_ok h
          subst hcons
          exact List.Forall₂.cons ⟨rfl, hx⟩ (ih rs' hrest)
      | arr i xs2 =>
          simp only [entryTasks] at h
          obtain ⟨a, rs', hx, hrest, hcons⟩ := gatherE_cons_ok h
          subst hcons
          exact List.Forall₂.cons ⟨rfl, hx⟩ (ih rs' hrest)
      | num n =>
          simp only [entryTasks] at h
          exact List.Forall₂.cons ⟨rfl, rfl⟩ (ih rs h)
      | bool b =>
          simp only [entryTasks] at h
          exact List.Forall₂.cons ⟨rfl, rfl⟩ (ih rs h)
      | null =>
          simp only [entryTasks] at h
          exact List.Forall₂.cons ⟨rfl, rfl⟩ (ih rs h)

/-- Items of a translated list, same statement as `entryTasks_rel`. -/
theorem itemTasks_rel {E : Type} (port : String → Except E String) :
    ∀ (xs : List Json) (rs : List Json),
      gatherE (itemTasks port xs) = Except.ok rs →
      List.Forall₂ (childRel port) xs (reassignItems xs rs) := by
  intro xs
  induction xs with
  | nil => intro rs _; exact List.Forall₂.nil
  | cons v rest ih =>
      intro rs h
      cases v with
      | str s =>
          simp only [itemTasks] at h
          obtain ⟨a, rs', hx, hrest, hcons⟩ := gatherE_cons_ok h
          subst hcons
          exact List.Forall₂.cons hx (ih rs' hrest)
      | obj i es2 =>
          simp only [itemTasks] at h
          obtain ⟨a, rs', hx, hrest, hcons⟩ := gatherE_cons_ok h
          subst hcons
          exact List.Forall₂.cons hx (ih rs' hrest)
      | arr i xs2 =>
          simp only [itemTasks] at h
          obtain ⟨a, rs', hx, hrest, hcons⟩ := gatherE_cons_ok h
          subst hcons
          exact List.Forall₂.cons hx (ih rs' hrest)
      | num n =>
          simp only [itemTasks] at h
          exact List.Forall₂.cons rfl (ih rs h)
      | bool b =>
          simp only [itemTasks] at h
          exact List.Forall₂.cons rfl (ih rs h)
      | null =>
          simp only [itemTasks] at h
          exact List.Forall₂.cons rfl (ih rs h)

/-- Inversion of a successful dict translation. -/
theorem tjo_obj_ok {E : Type} {port : String → Except E String} {i : Nat}
    {es : List (String × Json)} {u : Json}
    (h : translate_json_object port (Json.obj i es) = Except.ok u) :
    ∃ rs, gatherE (entryTasks port es) = Except.ok rs ∧
      u = Json.obj i (reassignEntries es rs) := by
  simp only [translate_json_object] at h
  cases hg : gatherE (entryTasks port es) with
  | ok rs =>
      rw [hg] at h
      simp only [Except.map] at h
      exact ⟨rs, rfl, (Except.ok.inj h).symm⟩
  | error e =>
      rw [hg] at h
      simp [Except.map] at h

/-- Inversion of a successful list translation. -/
theorem tjo_arr_ok {E : Type} {port : String → Except E String} {i : Nat}
    {xs : List Json} {u : Json}
    (h : translate_json_object port (Json.arr i xs) = Except.ok u) :
    ∃ rs, gatherE (itemTasks port xs) = Except.ok rs ∧
      u = Json.arr i (reassignItems xs rs) := by
  simp only [translate_json_object] at h
  cases hg : gatherE (itemTasks port xs) with
  | ok rs =>
      rw [hg] at h
      simp only [Except.map] at h
      exact ⟨rs, rfl, (Except.ok.inj h).symm⟩
  | error e =>
      rw [hg] at h
      simp [Except.map] at h

/-- A non-container value is returned unchanged (line 76 with no matching
`isinstance` branch). -/
theorem tjo_scalar_ok {E : Type} {port : String → Except E String} {t u : Json}
    (hobj : variant t ≠ Variant.obj) (harr : variant t ≠ Variant.arr)
    (h : translate_json_object port t = Except.ok u) : u = t := by
  cases t with
  | obj i es => exact absurd rfl hobj
  | arr i xs => exact absurd rfl harr
  | str s => exact (Except.ok.inj h).symm
  | num n => exact (Except.ok.inj h).symm
  | bool b => exact (Except.ok.inj h).symm
  | null => exact (Except.ok.inj h).symm

/-- Unfolding `childRel` on a string member. -/
theorem childRel_str {E : Type} {port : String → Except E String} {s : String}
    {w : Json} (h : childRel port (Json.str s) w) :
    ∃ r, port s = Except.ok r ∧ w = Json.str r := by
  simp only [childRel, translate] at h
  cases hp : port s with
  | ok r =>
      rw [hp] at h
      simp only [Except.map] at h
      exact ⟨r, rfl, (Except.ok.inj h).symm⟩
  | error e =>
      rw [hp] at h
      simp [Except.map] at h

/-- Size of a dict member, for strong induction over trees. -/
theorem sizeOf_snd_lt_obj (i : Nat) (es : List (String × Json))
    (kv : String × Json) (h : kv ∈ es) : sizeOf kv.2 < sizeOf (Json.obj i es) := by
  have h1 := List.sizeOf_lt_of_mem h
  obtain ⟨k, v⟩ := kv
  simp only [Prod.mk.sizeOf_spec] at h1
  simp only [Json.obj.sizeOf_spec]
  omega

/-- Size of a list member, for strong induction over trees. -/
theorem sizeOf_mem_lt_arr (i : Nat) (xs : List Json) (v : Json) (h : v ∈ xs) :
    sizeOf v < sizeOf (Json.arr i xs) := by
  have h1 := List.sizeOf_lt_of_mem h
  simp only [Json.arr.sizeOf_spec]
  omega

/-! ### Shape and identity preservation -/

/-- `skeletonEntries` of the rebuilt entries equals that of the originals,
given the member induction hypothesis. -/
theorem skeletonEntries_rel {E : Type} {port : String → Except E String} :
    ∀ {es es' : List (String × Json)},
      List.Forall₂ (fun a b => a.1 = b.1 ∧ childRel port a.2 b.2) es es' →
      (∀ kv ∈ es, ∀ u, translate_json_object port kv.2 = Except.ok u →
        skeleton u = skeleton kv.2) →
      skeletonEntries es' = skeletonEntries es := by
  intro es
  induction es with
  | nil => intro es' h _; cases h; rfl
  | cons kv rest ih =>
      intro es' h IH
      cases h with
      | cons hab hrest =>
          rename_i b l2
          obtain ⟨k, v⟩ := kv
          obtain ⟨kb, vb⟩ := b
          obtain ⟨hk, hcr⟩ := hab
          simp only at hk hcr
          have htail := ih hrest (fun kv' hkv' => IH kv' (List.mem_cons_of_mem _ hkv'))
          cases v with
          | str s =>
              obtain ⟨r, _, hw⟩ := childRel_str hcr
              subst hw
              simp [skeletonEntries, skeleton, htail, ← hk]
          | obj i es2 =>
              have hs := IH (k, Json.obj i es2) (List.mem_cons_self _ _) vb hcr
              simp [skeletonEntries, htail, hs, ← hk]
          | arr i xs2 =>
              have hs := IH (k, Json.arr i xs2) (List.mem_cons_self _ _) vb hcr
              simp [skeletonEntries, htail, hs, ← hk]
          | num n =>
              simp only [childRel] at hcr
              subst hcr
              simp [skeletonEntries, htail, ← hk]
          | bool bb =>
              simp only [childRel] at hcr
              subst hcr
              simp [skeletonEntries, htail, ← hk]
          | null =>
              simp only [childRel] at hcr
              subst hcr
              simp [skeletonEntries, htail, ← hk]

/-- `skeletonItems` of the rebuilt items equals that of the originals,
given the member induction hypothesis. -/
theorem skeletonItems_rel {E : Type} {port : String → Except E String} :
    ∀ {xs xs' : List Json},
      List.Forall₂ (childRel port) xs xs' →
      (∀ v ∈ xs, ∀ u, translate_json_object port v = Except.ok u →
        skeleton u = skeleton v) →
      skeletonItems xs' = skeletonItems xs := by
  intro xs
  induction xs with
  | nil => intro xs' h _; cases h; rfl
  | cons v rest ih =>
      intro xs' h IH
      cases h with
      | cons hcr hrest =>
          rename_i b l2
          have htail := ih hrest (fun v' hv' => IH v' (List.mem_cons_of_mem _ hv'))
          cases v with
          | str s =>
              obtain ⟨r, _, hw⟩ := childRel_str hcr
              subst hw
              simp [skeletonItems, skeleton, htail]
          | obj i es2 =>
              have hs := IH (Json.obj i es2) (List.mem_cons_self _ _) b hcr
              simp [skeletonItems, htail, hs]
          | arr i xs2 =>
              have hs := IH (Json.arr i xs2) (List.mem_cons_self _ _) b hcr
              simp [skeletonItems, htail, hs]
          | num n =>
              simp only [childRel] at hcr
              subst hcr
              simp [skeletonItems, htail]
          | bool bb =>
              simp only [childRel] at hcr
              subst hcr
              simp [skeletonItems, htail]
          | null =>
              simp only [childRel] at hcr
              subst hcr
              simp [skeletonItems, htail]

/-- Strong-induction core of skeleton preservation. -/
theorem tjo_skeleton_aux {E : Type} (port : String → Except E String) :
    ∀ (n : Nat) (t : Json), sizeOf t ≤ n → ∀ u,
      translate_json_object port t = Except.ok u → skeleton u = skeleton t := by
  intro n
  induction n with
  | zero =>
      intro t ht
      exfalso
      cases t <;> simp_all
  | succ n ih =>
      intro t ht u h
      cases t with
      | obj i es =>
          obtain ⟨rs, hg, hu⟩ := tjo_obj_ok h
          subst hu
          have hrel := entryTasks_rel port es rs hg
          have IH : ∀ kv ∈ es, ∀ u',
              translate_json_object port kv.2 = Except.ok u' →
              skeleton u' = skeleton kv.2 := by
            intro kv hkv u' h'
            have hlt := sizeOf_snd_lt_obj i es kv hkv
            exact ih kv.2 (by omega) u' h'
          simp only [skeleton]
          rw [skeletonEntries_rel hrel IH]
      | arr i xs =>
          obtain ⟨rs, hg, hu⟩ := tjo_arr_ok h
          subst hu
          have hrel := itemTasks_rel port xs rs hg
          have IH : ∀ v ∈ xs, ∀ u',
              translate_json_object port v = Except.ok u' →
              skeleton u' = skeleton v := by
            intro v hv u' h'
            have hlt := sizeOf_mem_lt_arr i xs v hv
            exact ih v (by omega) u' h'
          simp only [skeleton]
          rw [skeletonItems_rel hrel IH]
      | str s => rw [tjo_scalar_ok (by simp [variant]) (by simp [variant]) h]
      | num m => rw [tjo_scalar_ok (by simp [variant]) (by simp [variant]) h]
      | bool b => rw [tjo_scalar_ok (by simp [variant]) (by simp [variant]) h]
      | null => rw [tjo_scalar_ok (by simp [variant]) (by simp [variant]) h]

/-- Skeleton preservation: a successful `translate_json_object` returns a
tree with the same node identities, variants, key lists and lengths as its
input at every position — only leaf payloads may differ. -/
theorem tjo_skeleton {E : Type} {port : String → Except E String} {t u : Json}
    (h : translate_json_object port t = Except.ok u) : skeleton u = skeleton t :=
  tjo_skeleton_aux port (sizeOf t) t le_rfl u h

/-! ### Observations readable off the skeleton -/

theorem skeletonEntries_keys : ∀ es : List (String × Json),
    (skeletonEntries es).map Prod.fst = es.map Prod.fst := by
  intro es
  induction es with
  | nil => rfl
  | cons kv rest ih => obtain ⟨k, v⟩ := kv; simp [skeletonEntries, ih]

theorem skeletonItems_length : ∀ xs : List Json,
    (skeletonItems xs).length = xs.length := by
  intro xs
  induction xs with
  | nil => rfl
  | cons v rest ih => simp [skeletonItems, ih]

theorem variant_skeleton (v : Json) : variant (skeleton v) = variant v := by
  cases v <;> rfl

theorem keysOf_skeleton (v : Json) : keysOf (skeleton v) = keysOf v := by
  cases v <;> simp [skeleton, keysOf, skeletonEntries_keys]

theorem lenOf_skeleton (v : Json) : lenOf (skeleton v) = lenOf v := by
  cases v <;> simp [skeleton, lenOf, skeletonItems_length]

theorem nodeId_skeleton (v : Json) : nodeId (skeleton v) = nodeId v := by
  cases v <;> rfl

/-! ### Transport of skeleton equality along paths -/

theorem lookup_skeletonEntries :
    ∀ {es es' : List (String × Json)}, skeletonEntries es = skeletonEntries es' →
      ∀ k : String, Option.map skeleton (es.lookup k) =
        Option.map skeleton (es'.lookup k) := by
  intro es
  induction es with
  | nil =>
      intro es' h k
      cases es' with
      | nil => rfl
      | cons kv r =>
          obtain ⟨k2, v2⟩ := kv
          simp [skeletonEntries] at h
  | cons kv r ih =>
      intro es' h k
      obtain ⟨k1, v1⟩ := kv
      cases es' with
      | nil => simp [skeletonEntries] at h
      | cons kv2 r2 =>
          obtain ⟨k2, v2⟩ := kv2
          simp only [skeletonEntries, List.cons.injEq, Prod.mk.injEq] at h
          obtain ⟨⟨hk, hv⟩, hr⟩ := h
          subst hk
          by_cases hkk : k == k1
          · simp [List.lookup, hkk, hv]
          · simp only [List.lookup, hkk]
            exact ih hr k

theorem get?_skeletonItems :
    ∀ {xs xs' : List Json}, skeletonItems xs = skeletonItems xs' →
      ∀ i : Nat, Option.map skeleton (xs.get? i) =
        Option.map skeleton (xs'.get? i) := by
  intro xs
  induction xs with
  | nil =>
      intro xs' h i
      cases xs' with
      | nil => rfl
      | cons v r => simp [skeletonItems] at h
  | cons v r ih =>
      intro xs' h i
      cases xs' with
      | nil => simp [skeletonItems] at h
      | cons v2 r2 =>
          simp only [skeletonItems, List.cons.injEq] at h
          obtain ⟨hv, hr⟩ := h
          cases i with
          | zero => simp [hv]
          | succ j => simpa using ih hr j

/-- Two values with equal skeletons have skeleton-equal values at every
position: variants, keys, lengths and node identities agree everywhere. -/
theorem getPath_skeleton :
    ∀ (p : List PathStep) (t t' : Json), skeleton t = skeleton t' →
      Option.map skeleton (getPath t p) = Option.map skeleton (getPath t' p) := by
  intro p
  induction p with
  | nil => intro t t' h; simpa [getPath] using h
  | cons st p ih =>
      intro t t' h
      cases st with
      | key k =>
          cases t with
          | obj i es =>
              cases t' with
              | obj i2 es2 =>
                  simp only [skeleton, Json.obj.injEq] at h
                  have hl := lookup_skeletonEntries h.2 k
                  simp only [getPath]
                  cases h1 : es.lookup k with
                  | none =>
                      rw [h1] at hl
                      cases h2 : es2.lookup k with
                      | none => simp
                      | some w => rw [h2] at hl; simp at hl
                  | some v =>
                      rw [h1] at hl
                      cases h2 : es2.lookup k with
                      | none => rw [h2] at hl; simp at hl
                      | some w =>
                          rw [h2] at hl
                          exact ih v w (by simpa using hl)
              | arr i2 xs2 => simp [skeleton] at h
              | str s => simp [skeleton] at h
              | num n => simp [skeleton] at h
              | bool b => simp [skeleton] at h
              | null => simp [skeleton] at h
          | arr i xs =>
              cases t' <;> simp_all [skeleton, getPath]
          | str s =>
              cases t' <;> simp_all [skeleton, getPath]
          | num n =>
              cases t' <;> simp_all [skeleton, getPath]
          | bool b =>
              cases t' <;> simp_all [skeleton, getPath]
          | null =>
              cases t' <;> simp_all [skeleton, getPath]
      | idx j =>
          cases t with
          | arr i xs =>
              cases t' with
              | arr i2 xs2 =>
                  simp only [skeleton, Json.arr.injEq] at h
                  have hl := get?_skeletonItems h.2 j
                  simp only [getPath]
                  cases h1 : xs.get? j with
                  | none =>
                      rw [h1] at hl
                      cases h2 : xs2.get? j with
                      | none => simp
                      | some w => rw [h2] at hl; simp at hl
                  | some v =>
                      rw [h1] at hl
                      cases h2 : xs2.get? j with
                      | none => rw [h2] at hl; simp at hl
                      | some w =>
                          rw [h2] at hl
                          exact ih v w (by simpa using hl)
              | obj i2 es2 => simp [skeleton] at h
              | str s => simp [skeleton] at h
              | num n => simp [skeleton] at h
              | bool b => simp [skeleton] at h
              | null => simp [skeleton] at h
          | obj i es =>
              cases t' <;> simp_all [skeleton, getPath]
          | str s =>
              cases t' <;> simp_all [skeleton, getPath]
          | num n =>
              cases t' <;> simp_all [skeleton, getPath]
          | bool b =>
              cases t' <;> simp_all [skeleton, getPath]
          | null =>
              cases t' <;> simp_all [skeleton, getPath]

/-! ### Preservation of non-string leaves (value identity) -/

theorem lookup_mem_snd {β : Type} :
    ∀ {es : List (String × β)} {k : String} {v : β},
      es.lookup k = some v → ∃ k', (k', v) ∈ es := by
  intro es
  induction es with
  | nil => intro k v h; simp [List.lookup] at h
  | cons kv r ih =>
      intro k v h
      obtain ⟨k1, v1⟩ := kv
      by_cases hk : k == k1
      · simp only [List.lookup, hk] at h
        exact ⟨k1, by simp [← Option.some.inj h]⟩
      · simp only [List.lookup, hk] at h
        obtain ⟨k', hm⟩ := ih h
        exact ⟨k', List.mem_cons_of_mem _ hm⟩

theorem lookup_forall₂ {R : Json → Json → Prop} :
    ∀ {es es' : List (String × Json)},
      List.Forall₂ (fun a b => a.1 = b.1 ∧ R a.2 b.2) es es' →
      ∀ k : String,
        (es.lookup k = none ∧ es'.lookup k = none) ∨
        ∃ v w, es.lookup k = some v ∧ es'.lookup k = some w ∧ R v w := by
  intro es
  induction es with
  | nil =>
      intro es' h k
      cases h
      exact Or.inl ⟨rfl, rfl⟩
  | cons kv r ih =>
      intro es' h k
      cases h with
      | cons hab hrest =>
          rename_i b l2
          obtain ⟨k1, v1⟩ := kv
          obtain ⟨k2, v2⟩ := b
          obtain ⟨hk, hr⟩ := hab
          simp only at hk hr
          subst hk
          by_cases hkk : k == k1
          · exact Or.inr ⟨v1, v2, by simp [List.lookup, hkk], by simp [List.lookup, hkk], hr⟩
          · simp only [List.lookup, hkk]
            exact ih hrest k

theorem get?_forall₂ {R : Json → Json → Prop} :
    ∀ {xs xs' : List Json}, List.Forall₂ R xs xs' →
      ∀ i : Nat,
        (xs.get? i = none ∧ xs'.get? i = none) ∨
        ∃ v w, xs.get? i = some v ∧ xs'.get? i = some w ∧ R v w := by
  intro xs
  induction xs with
  | nil =>
      intro xs' h i
      cases h
      exact Or.inl ⟨rfl, rfl⟩
  | cons v r ih =>
      intro xs' h i
      cases h with
      | cons hab hrest =>
          rename_i b l2
          cases i with
          | zero => exact Or.inr ⟨v, b, rfl, rfl, hab⟩
          | succ j => simpa using ih hrest j

/-- Strong-induction core: non-string leaves are carried through unchanged
at their positions. -/
theorem tjo_opaque_aux {E : Type} (port : String → Except E String) :
    ∀ (n : Nat) (t : Json), sizeOf t ≤ n → ∀ u,
      translate_json_object port t = Except.ok u →
      ∀ (p : List PathStep) (v : Json), getPath t p = some v →
        isOpaque v = true → getPath u p = some v := by
  intro n
  induction n with
  | zero =>
      intro t ht
      exfalso
      cases t <;> simp_all
  | succ n ih =>
      intro t ht u h p v hp hv
      cases t with
      | obj i es =>
          obtain ⟨rs, hg, hu⟩ := tjo_obj_ok h
          subst hu
          have hrel := entryTasks_rel port es rs hg
          cases p with
          | nil =>
              simp only [getPath, Option.some.injEq] at hp
              rw [← hp] at hv
              simp [isOpaque] at hv
          | cons st p' =>
              cases st with
              | key k =>
                  simp only [getPath] at hp
                  cases h1 : es.lookup k with
                  | none => rw [h1] at hp; simp at hp
                  | some v0 =>
                      rw [h1] at hp
                      simp only at hp
                      rcases lookup_forall₂ hrel k with ⟨h2, _⟩ | ⟨v1, w, h2, h3, hcr⟩
                      · rw [h1] at h2; cases h2
                      · rw [h1] at h2
                        rw [← Option.some.inj h2] at hcr
                        have hgoal : getPath (Json.obj i (reassignEntries es rs))
                            (PathStep.key k :: p') = getPath w p' := by
                          simp [getPath, h3]
                        rw [hgoal]
                        cases v0 with
                        | str s =>
                            cases p' with
                            | nil =>
                                simp only [getPath, Option.some.injEq] at hp
                                rw [← hp] at hv
                                simp [isOpaque] at hv
                            | cons st2 p'' => simp [getPath] at hp
                        | obj i2 es2 =>
                            have hm := lookup_mem_snd h1
                            obtain ⟨k', hm⟩ := hm
                            have hlt := sizeOf_snd_lt_obj i es (k', Json.obj i2 es2) hm
                            simp only at hlt
                            exact ih _ (by omega) w hcr p' v hp hv
                        | arr i2 xs2 =>
                            have hm := lookup_mem_snd h1
                            obtain ⟨k', hm⟩ := hm
                            have hlt := sizeOf_snd_lt_obj i es (k', Json.arr i2 xs2) hm
                            simp only at hlt
                            exact ih _ (by omega) w hcr p' v hp hv
                        | num m =>
                            simp only [childRel] at hcr
                            subst hcr
                            cases p' with
                            | nil => exact hp
                            | cons st2 p'' => simp [getPath] at hp
                        | bool b =>
                            simp only [childRel] at hcr
                            subst hcr
                            cases p' with
                            | nil => exact hp
                            | cons st2 p'' => simp [getPath] at hp
                        | null =>
                            simp only [childRel] at hcr
                            subst hcr
                            cases p' with
                            | nil => exact hp
                            | cons st2 p'' => simp [getPath] at hp
              | idx j => simp [getPath] at hp
      | arr i xs =>
          obtain ⟨rs, hg, hu⟩ := tjo_arr_ok h
          subst hu
          have hrel := itemTasks_rel port xs rs hg
          cases p with
          | nil =>
              simp only [getPath, Option.some.injEq] at hp
              rw [← hp] at hv
              simp [isOpaque] at hv
          | cons st p' =>
              cases st with
              | key k => simp [getPath] at hp
              | idx j =>
                  simp only [getPath] at hp
                  cases h1 : xs.get? j with
                  | none => rw [h1] at hp; simp at hp
                  | some v0 =>
                      rw [h1] at hp
                      simp only at hp
                      rcases get?_forall₂ hrel j with ⟨h2, _⟩ | ⟨v1, w, h2, h3, hcr⟩
                      · rw [h1] at h2; cases h2
                      · rw [h1] at h2
                        rw [← Option.some.inj h2] at hcr
                        have hgoal : getPath (Json.arr i (reassignItems xs rs))
                            (PathStep.idx j :: p') = getPath w p' := by
                          simp only [getPath, h3]
                        rw [hgoal]
                        cases v0 with
                        | str s =>
                            cases p' with
                            | nil =>
                                simp only [getPath, Option.some.injEq] at hp
                                rw [← hp] at hv
                                simp [isOpaque] at hv
                            | cons st2 p'' => simp [getPath] at hp
                        | obj i2 es2 =>
                            have hm := List.get?_mem h1
                            have hlt := sizeOf_mem_lt_arr i xs _ hm
                            exact ih _ (by omega) w hcr p' v hp hv
                        | arr i2 xs2 =>
                            have hm := List.get?_mem h1
                            have hlt := sizeOf_mem_lt_arr i xs _ hm
                            exact ih _ (by omega) w hcr p' v hp hv
                        | num m =>
                            simp only [childRel] at hcr
                            subst hcr
                            cases p' with
                            | nil => exact hp
                            | cons st2 p'' => simp [getPath] at hp
                        | bool b =>
                            simp only [childRel] at hcr
                            subst hcr
                            cases p' with
                            | nil => exact hp
                            | cons st2 p'' => simp [getPath] at hp
                        | null =>
                            simp only [childRel] at hcr
                            subst hcr
                            cases p' with
                            | nil => exact hp
                            | cons st2 p'' => simp [getPath] at hp
      | str s =>
          rw [tjo_scalar_ok (by simp [variant]) (by simp [variant]) h]
          exact hp
      | num m =>
          rw [tjo_scalar_ok (by simp [variant]) (by simp [variant]) h]
          exact hp
      | bool b =>
          rw [tjo_scalar_ok (by simp [variant]) (by simp [variant]) h]
          exact hp
      | null =>
          rw [tjo_scalar_ok (by simp [variant]) (by simp [variant]) h]
          exact hp

/-- Non-string scalars are value-identical at their positions in the
output. -/
theorem tjo_opaque {E : Type} {port : String → Except E String} {t u : Json}
    (h : translate_json_object port t = Except.ok u)
    {p : List PathStep} {v : Json} (hp : getPath t p = some v)
    (hv : isOpaque v = true) : getPath u p = some v :=
  tjo_opaque_aux port (sizeOf t) t le_rfl u h p v hp hv

/-! ### The traversal's gate/port events are exactly one
acquire/call/release triple per dispatched string leaf -/

theorem entryEvents_eq {es : List (String × Json)}
    (IH : ∀ kv ∈ es, traversalEvents kv.2 =
      ((leafTexts kv.2).map translateEvents).flatten) :
    entryEvents es = ((leafTextsE es).map translateEvents).flatten := by
  induction es with
  | nil => rfl
  | cons kv rest ih =>
      obtain ⟨k, v⟩ := kv
      have htail := ih (fun kv' h' => IH kv' (List.mem_cons_of_mem _ h'))
      cases v with
      | str s => simp [entryEvents, leafTextsE, htail]
      | obj i es2 =>
          have hhead := IH (k, Json.obj i es2) (List.mem_cons_self _ _)
          simp only at hhead
          simp [entryEvents, leafTextsE, htail, hhead]
      | arr i xs2 =>
          have hhead := IH (k, Json.arr i xs2) (List.mem_cons_self _ _)
          simp only at hhead
          simp [entryEvents, leafTextsE, htail, hhead]
      | num n => simp [entryEvents, leafTextsE, htail]
      | bool b => simp [entryEvents, leafTextsE, htail]
      | null => simp [entryEvents, leafTextsE, htail]

theorem itemEvents_eq {xs : List Json}
    (IH : ∀ v ∈ xs, traversalEvents v =
      ((leafTexts v).map translateEvents).flatten) :
    itemEvents xs = ((leafTextsI xs).map translateEvents).flatten := by
  induction xs with
  | nil => rfl
  | cons v rest ih =>
      have htail := ih (fun v' h' => IH v' (List.mem_cons_of_mem _ h'))
      cases v with
      | str s => simp [itemEvents, leafTextsI, htail]
      | obj i es2 =>
          have hhead := IH (Json.obj i es2) (List.mem_cons_self _ _)
          simp [itemEvents, leafTextsI, htail, hhead]
      | arr i xs2 =>
          have hhead := IH (Json.arr i xs2) (List.mem_cons_self _ _)
          simp [itemEvents, leafTextsI, htail, hhead]
      | num n => simp [itemEvents, leafTextsI, htail]
      | bool b => simp [itemEvents, leafTextsI, htail]
      | null => simp [itemEvents, leafTextsI, htail]

theorem traversalEvents_eq_aux :
    ∀ (n : Nat) (t : Json), sizeOf t ≤ n →
      traversalEvents t = ((leafTexts t).map translateEvents).flatten := by
  intro n
  induction n with
  | zero =>
      intro t ht
      exfalso
      cases t <;> simp_all
  | succ n ih =>
      intro t ht
      cases t with
      | obj i es =>
          have IH : ∀ kv ∈ es, traversalEvents kv.2 =
              ((leafTexts kv.2).map translateEvents).flatten := by
            intro kv hkv
            have hlt := sizeOf_snd_lt_obj i es kv hkv
            exact ih kv.2 (by omega)
          simpa [traversalEvents, leafTexts] using entryEvents_eq IH
      | arr i xs =>
          have IH : ∀ v ∈ xs, traversalEvents v =
              ((leafTexts v).map translateEvents).flatten := by
            intro v hv
            have hlt := sizeOf_mem_lt_arr i xs v hv
            exact ih v (by omega)
          simpa [traversalEvents, leafTexts] using itemEvents_eq IH
      | str s => rfl
      | num m => rfl
      | bool b => rfl
      | null => rfl

/-- Every semaphore or port interaction of a traversal belongs to exactly
one `acquire`/`call`/`release` triple of one dispatched string leaf:
members that are not string leaves generate no events of their own. -/
theorem traversalEvents_eq (t : Json) :
    traversalEvents t = ((leafTexts t).map translateEvents).flatten :=
  traversalEvents_eq_aux (sizeOf t) t le_rfl

/-! ### Every dispatched text is a string leaf at some position -/

theorem wfKeysEntries_mem {es : List (String × Json)}
    (h : wfKeysEntries es = true) : ∀ kv ∈ es, wfKeys kv.2 = true := by
  induction es with
  | nil => intro kv hkv; cases hkv
  | cons kv0 rest ih =>
      intro kv hkv
      obtain ⟨k0, v0⟩ := kv0
      simp only [wfKeysEntries, Bool.and_eq_true] at h
      cases hkv with
      | head => exact h.1
      | tail _ hm => exact ih h.2 kv hm

theorem wfKeysItems_mem {xs : List Json}
    (h : wfKeysItems xs = true) : ∀ v ∈ xs, wfKeys v = true := by
  induction xs with
  | nil => intro v hv; cases hv
  | cons v0 rest ih =>
      intro v hv
      simp only [wfKeysItems, Bool.and_eq_true] at h
      cases hv with
      | head => exact h.1
      | tail _ hm => exact ih h.2 v hm

theorem lookup_key_mem {β : Type} :
    ∀ {es : List (String × β)} {k : String} {v : β},
      es.lookup k = some v → k ∈ es.map Prod.fst := by
  intro es
  induction es with
  | nil => intro k v h; simp [List.lookup] at h
  | cons kv r ih =>
      intro k v h
      obtain ⟨k1, v1⟩ := kv
      by_cases hk : k == k1
      · simp [(by simpa using hk : k = k1)]
      · simp only [List.lookup, hk] at h
        simp [ih h]

theorem leafTextsE_path {es : List (String × Json)}
    (hnd : (es.map Prod.fst).Nodup)
    (hwf : wfKeysEntries es = true)
    (IH : ∀ kv ∈ es, wfKeys kv.2 = true → ∀ s ∈ leafTexts kv.2,
      ∃ p, getPath kv.2 p = some (Json.str s)) :
    ∀ s ∈ leafTextsE es,
      ∃ k' v' p', es.lookup k' = some v' ∧ getPath v' p' = some (Json.str s) := by
  induction es with
  | nil => intro s hs; simp [leafTextsE] at hs
  | cons kv rest ih =>
      obtain ⟨k, v⟩ := kv
      intro s hs
      simp only [List.map, List.nodup_cons] at hnd
      simp only [wfKeysEntries, Bool.and_eq_true] at hwf
      have hrec : ∀ s' ∈ leafTextsE rest,
          ∃ k' v' p', rest.lookup k' = some v' ∧
            getPath v' p' = some (Json.str s') := by
        exact ih hnd.2 hwf.2 (fun kv' h' => IH kv' (List.mem_cons_of_mem _ h'))
      have hlift : ∀ s' ∈ leafTextsE rest,
          ∃ k' v' p', ((k, v) :: rest).lookup k' = some v' ∧
            getPath v' p' = some (Json.str s') := by
        intro s' hs'
        obtain ⟨k', v', p', hl, hg⟩ := hrec s' hs'
        have hkm := lookup_key_mem hl
        have hne : (k' == k) = false := by
          have : k' ≠ k := fun he => hnd.1 (he ▸ hkm)
          simpa using this
        exact ⟨k', v', p', by simp [List.lookup, hne, hl], hg⟩
      cases v with
      | str s0 =>
          simp only [leafTextsE, List.mem_cons] at hs
          cases hs with
          | inl he =>
              subst he
              exact ⟨k, Json.str s, [], by simp [List.lookup], by simp [getPath]⟩
          | inr hm => exact hlift s hm
      | obj i es2 =>
          simp only [leafTextsE, List.mem_append] at hs
          cases hs with
          | inl hm =>
              obtain ⟨p, hp⟩ := IH (k, Json.obj i es2) (List.mem_cons_self _ _)
                hwf.1 s hm
              exact ⟨k, Json.obj i es2, p, by simp [List.lookup], hp⟩
          | inr hm => exact hlift s hm
      | arr i xs2 =>
          simp only [leafTextsE, List.mem_append] at hs
          cases hs with
          | inl hm =>
              obtain ⟨p, hp⟩ := IH (k, Json.arr i xs2) (List.mem_cons_self _ _)
                hwf.1 s hm
              exact ⟨k, Json.arr i xs2, p, by simp [List.lookup], hp⟩
          | inr hm => exact hlift s hm
      | num n =>
          simp only [leafTextsE] at hs
          exact hlift s hs
      | bool b =>
          simp only [leafTextsE] at hs
          exact hlift s hs
      | null =>
          simp only [leafTextsE] at hs
          exact hlift s hs

theorem leafTextsI_path {xs : List Json}
    (hwf : wfKeysItems xs = true)
    (IH : ∀ v ∈ xs, wfKeys v = true → ∀ s ∈ leafTexts v,
      ∃ p, getPath v p = some (Json.str s)) :
    ∀ s ∈ leafTextsI xs,
      ∃ j v' p', xs.get? j = some v' ∧ getPath v' p' = some (Json.str s) := by
  induction xs with
  | nil => intro s hs; simp [leafTextsI] at hs
  | cons v rest ih =>
      intro s hs
      simp only [wfKeysItems, Bool.and_eq_true] at hwf
      have hrec : ∀ s' ∈ leafTextsI rest,
          ∃ j v' p', rest.get? j = some v' ∧
            getPath v' p' = some (Json.str s') :=
        ih hwf.2 (fun v' h' => IH v' (List.mem_cons_of_mem _ h'))
      have hlift : ∀ s' ∈ leafTextsI rest,
          ∃ j v' p', (v :: rest).get? j = some v' ∧
            getPath v' p' = some (Json.str s') := by
        intro s' hs'
        obtain ⟨j, v', p', hl, hg⟩ := hrec s' hs'
        exact ⟨j + 1, v', p', by simpa using hl, hg⟩
      cases v with
      | str s0 =>
          simp only [leafTextsI, List.mem_cons] at hs
          cases hs with
          | inl he =>
              subst he
              exact ⟨0, Json.str s, [], rfl, by simp [getPath]⟩
          | inr hm => exact hlift s hm
      | obj i es2 =>
          simp only [leafTextsI, List.mem_append] at hs
          cases hs with
          | inl hm =>
              obtain ⟨p, hp⟩ := IH (Json.obj i es2) (List.mem_cons_self _ _)
                hwf.1 s hm
              exact ⟨0, Json.obj i es2, p, rfl, hp⟩
          | inr hm => exact hlift s hm
      | arr i xs2 =>
          simp only [leafTextsI, List.mem_append] at hs
          cases hs with
          | inl hm =>
              obtain ⟨p, hp⟩ := IH (Json.arr i xs2) (List.mem_cons_self _ _)
                hwf.1 s hm
              exact ⟨0, Json.arr i xs2, p, rfl, hp⟩
          | inr hm => exact hlift s hm
      | num n =>
          simp only [leafTextsI] at hs
          exact hlift s hs
      | bool b =>
          simp only [leafTextsI] at hs
          exact hlift s hs
      | null =>
          simp only [leafTextsI] at hs
          exact hlift s hs

theorem leafTexts_path_aux :
    ∀ (n : Nat) (t : Json), sizeOf t ≤ n → wfKeys t = true →
      ∀ s ∈ leafTexts t, ∃ p, getPath t p = some (Json.str s) := by
  intro n
  induction n with
  | zero =>
      intro t ht
      exfalso
      cases t <;> simp_all
  | succ n ih =>
      intro t ht hwf s hs
      cases t with
      | obj i es =>
          simp only [wfKeys, Bool.and_eq_true, decide_eq_true_eq] at hwf
          have IH : ∀ kv ∈ es, wfKeys kv.2 = true → ∀ s' ∈ leafTexts kv.2,
              ∃ p, getPath kv.2 p = some (Json.str s') := by
            intro kv hkv hw s' hs'
            have hlt := sizeOf_snd_lt_obj i es kv hkv
            exact ih kv.2 (by omega) hw s' hs'
          obtain ⟨k', v', p', hl, hg⟩ :=
            leafTextsE_path hwf.1 hwf.2 IH s (by simpa [leafTexts] using hs)
          exact ⟨PathStep.key k' :: p', by simp [getPath, hl, hg]⟩
      | arr i xs =>
          simp only [wfKeys] at hwf
          have IH : ∀ v ∈ xs, wfKeys v = true → ∀ s' ∈ leafTexts v,
              ∃ p, getPath v p = some (Json.str s') := by
            intro v hv hw s' hs'
            have hlt := sizeOf_mem_lt_arr i xs v hv
            exact ih v (by omega) hw s' hs'
          obtain ⟨j, v', p', hl, hg⟩ :=
            leafTextsI_path hwf IH s (by simpa [leafTexts] using hs)
          exact ⟨PathStep.idx j :: p', by simp only [getPath, hl, hg]⟩
      | str s0 => simp [leafTexts] at hs
      | num m => simp [leafTexts] at hs
      | bool b => simp [leafTexts] at hs
      | null => simp [leafTexts] at hs

/-- In a well-formed tree, every text dispatched to the port is a string
leaf of the tree at some position. -/
theorem leafTexts_path {t : Json} (hwf : wfKeys t = true) :
    ∀ s ∈ leafTexts t, ∃ p, getPath t p = some (Json.str s) :=
  leafTexts_path_aux (sizeOf t) t le_rfl hwf

/-! ### Totality under a total port -/

theorem entryTasks_all_ok {E : Type} {port : String → Except E String}
    (hp : ∀ s, ∃ r, port s = Except.ok r) :
    ∀ {es : List (String × Json)},
      (∀ kv ∈ es, ∃ u, translate_json_object port kv.2 = Except.ok u) →
      ∀ x ∈ entryTasks port es, ∃ a, x = Except.ok a := by
  intro es
  induction es with
  | nil => intro _ x hx; cases hx
  | cons kv rest ih =>
      intro IH x hx
      obtain ⟨k, v⟩ := kv
      have htail := ih (fun kv' h' => IH kv' (List.mem_cons_of_mem _ h'))
      cases v with
      | str s =>
          simp only [entryTasks, List.mem_cons] at hx
          cases hx with
          | inl he =>
              obtain ⟨r, hr⟩ := hp s
              exact ⟨Json.str r, by simp [he, translate, hr, Except.map]⟩
          | inr hm => exact htail x hm
      | obj i es2 =>
          simp only [entryTasks, List.mem_cons] at hx
          cases hx with
          | inl he =>
              obtain ⟨u, hu⟩ := IH (k, Json.obj i es2) (List.mem_cons_self _ _)
              exact ⟨u, by simp [he]; exact hu⟩
          | inr hm => exact htail x hm
      | arr i xs2 =>
          simp only [entryTasks, List.mem_cons] at hx
          cases hx with
          | inl he =>
              obtain ⟨u, hu⟩ := IH (k, Json.arr i xs2) (List.mem_cons_self _ _)
              exact ⟨u, by simp [he]; exact hu⟩
          | inr hm => exact htail x hm
      | num n =>
          simp only [entryTasks] at hx
          exact htail x hx
      | bool b =>
          simp only [entryTasks] at hx
          exact htail x hx
      | null =>
          simp only [entryTasks] at hx
          exact htail x hx

theorem itemTasks_all_ok {E : Type} {port : String → Except E String}
    (hp : ∀ s, ∃ r, port s = Except.ok r) :
    ∀ {xs : List Json},
      (∀ v ∈ xs, ∃ u, translate_json_object port v = Except.ok u) →
      ∀ x ∈ itemTasks port xs, ∃ a, x = Except.ok a := by
  intro xs
  induction xs with
  | nil => intro _ x hx; cases hx
  | cons v rest ih =>
      intro IH x hx
      have htail := ih (fun v' h' => IH v' (List.mem_cons_of_mem _ h'))
      cases v with
      | str s =>
          simp only [itemTasks, List.mem_cons] at hx
          cases hx with
          | inl he =>
              obtain ⟨r, hr⟩ := hp s
              exact ⟨Json.str r, by simp [he, translate, hr, Except.map]⟩
          | inr hm => exact htail x hm
      | obj i es2 =>
          simp only [itemTasks, List.mem_cons] at hx
          cases hx with
          | inl he =>
              obtain ⟨u, hu⟩ := IH (Json.obj i es2) (List.mem_cons_self _ _)
              exact ⟨u, by simp [he]; exact hu⟩
          | inr hm => exact htail x hm
      | arr i xs2 =>
          simp only [itemTasks, List.mem_cons] at hx
          cases hx with
          | inl he =>
              obtain ⟨u, hu⟩ := IH (Json.arr i xs2) (List.mem_cons_self _ _)
              exact ⟨u, by simp [he]; exact hu⟩
          | inr hm => exact htail x hm
      | num n =>
          simp only [itemTasks] at hx
          exact htail x hx
      | bool b =>
          simp only [itemTasks] at hx
          exact htail x hx
      | null =>
          simp only [itemTasks] at hx
          exact htail x hx

theorem tjo_total_aux {E : Type} {port : String → Except E String}
    (hp : ∀ s, ∃ r, port s = Except.ok r) :
    ∀ (n : Nat) (t : Json), sizeOf t ≤ n →
      ∃ u, translate_json_object port t = Except.ok u := by
  intro n
  induction n with
  | zero =>
      intro t ht
      exfalso
      cases t <;> simp_all
  | succ n ih =>
      intro t ht
      cases t with
      | obj i es =>
          have IH : ∀ kv ∈ es, ∃ u, translate_json_object port kv.2 = Except.ok u := by
            intro kv hkv
            have hlt := sizeOf_snd_lt_obj i es kv hkv
            exact ih kv.2 (by omega)
          obtain ⟨rs, hrs⟩ := gatherE_ok_of_forall (entryTasks_all_ok hp IH)
          exact ⟨Json.obj i (reassignEntries es rs),
            by simp [translate_json_object, hrs, Except.map]⟩
      | arr i xs =>
          have IH : ∀ v ∈ xs, ∃ u, translate_json_object port v = Except.ok u := by
            intro v hv
            have hlt := sizeOf_mem_lt_arr i xs v hv
            exact ih v (by omega)
          obtain ⟨rs, hrs⟩ := gatherE_ok_of_forall (itemTasks_all_ok hp IH)
          exact ⟨Json.arr i (reassignItems xs rs),
            by simp [translate_json_object, hrs, Except.map]⟩
      | str s => exact ⟨Json.str s, rfl⟩
      | num m => exact ⟨Json.num m, rfl⟩
      | bool b => exact ⟨Json.bool b, rfl⟩
      | null => exact ⟨Json.null, rfl⟩

/-- With a port that answers every request, every tree translates. -/
theorem tjo_total {E : Type} {port : String → Except E String}
    (hp : ∀ s, ∃ r, port s = Except.ok r) (t : Json) :
    ∃ u, translate_json_object port t = Except.ok u :=
  tjo_total_aux hp (sizeOf t) t le_rfl

/-! ### Completion-schedule independence of the gathered results -/

theorem applySchedule_length (f : String → String) (xs : List String) :
    ∀ (σ : List Nat) (slots : List (Option String)),
      (applySchedule f xs σ slots).length = slots.length := by
  intro σ
  induction σ with
  | nil => intro slots; rfl
  | cons j σ ih => intro slots; simp [applySchedule, ih]

theorem applySchedule_keeps (f : String → String) (xs : List String) :
    ∀ (σ : List Nat) (slots : List (Option String)) (j : Nat),
      slots.get? j = some (some (f (xs.getD j ""))) →
      (applySchedule f xs σ slots).get? j = some (some (f (xs.getD j ""))) := by
  intro σ
  induction σ with
  | nil => intro slots j h; exact h
  | cons j0 σ ih =>
      intro slots j h
      have hlen : j < slots.length := by
        by_contra hc
        rw [List.get?_eq_none.mpr (Nat.le_of_not_lt hc)] at h
        cases h
      simp only [applySchedule]
      refine ih _ j ?_
      rw [List.get?_set_of_lt _ _ hlen]
      by_cases hj : j0 = j
      · subst hj; simp
      · rw [if_neg hj]; exact h

theorem applySchedule_mem (f : String → String) (xs : List String) :
    ∀ (σ : List Nat) (slots : List (Option String)) (j : Nat),
      j ∈ σ → j < slots.length →
      (applySchedule f xs σ slots).get? j = some (some (f (xs.getD j ""))) := by
  intro σ
  induction σ with
  | nil => intro slots j hm; cases hm
  | cons j0 σ ih =>
      intro slots j hm hlen
      simp only [applySchedule]
      by_cases hj : j0 = j
      · subst hj
        apply applySchedule_keeps
        rw [List.get?_set_of_lt _ _ hlen]
        simp
      · cases hm with
        | head => exact absurd rfl hj
        | tail _ hm' => exact ih _ j hm' (by simpa using hlen)

/-- `asyncio.gather` reassembles positionally: under any completion order
that completes every task exactly once, slot `j` ends up holding the stub
port's answer for input `j` — the result never depends on the completion
order. -/
theorem runSchedule_perm {f : String → String} {xs : List String}
    {σ : List Nat} (hperm : σ.Perm (List.range xs.length)) :
    runSchedule f xs σ = xs.map (fun s => some (f s)) := by
  apply List.ext_get?
  intro j
  by_cases hj : j < xs.length
  · have hmem : j ∈ σ := hperm.mem_iff.mpr (List.mem_range.mpr hj)
    rw [runSchedule, applySchedule_mem f xs σ _ j hmem (by simpa using hj)]
    have hgd : xs.getD j "" = xs.get ⟨j, hj⟩ := by
      show (xs.get? j).getD "" = xs.get ⟨j, hj⟩
      rw [List.get?_eq_get hj]
      rfl
    rw [hgd, List.get?_map, List.get?_eq_get hj]
    rfl
  · have h1 : (runSchedule f xs σ).length = xs.length := by
      rw [runSchedule, applySchedule_length]
      simp
    rw [List.get?_eq_none.mpr (by omega), List.get?_eq_none.mpr (by simp; omega)]

/-! ### The semaphore invariant -/

theorem countP_set_start :
    ∀ (l : List TaskPhase) (i : Nat), l.get? i = some TaskPhase.pending →
      (l.set i TaskPhase.inflight).countP (fun t => decide (t = TaskPhase.inflight)) =
        l.countP (fun t => decide (t = TaskPhase.inflight)) + 1 := by
  intro l
  induction l with
  | nil => intro i h; simp at h
  | cons x r ih =>
      intro i h
      cases i with
      | zero =>
          have hx : x = TaskPhase.pending := by simpa using h
          subst hx
          simp [List.countP_cons]
      | succ j =>
          have := ih j (by simpa using h)
          simp only [List.set, List.countP_cons]
          omega

theorem countP_set_finish (x : TaskPhase)
    (hx : decide (x = TaskPhase.inflight) = false) :
    ∀ (l : List TaskPhase) (i : Nat), l.get? i = some TaskPhase.inflight →
      (l.set i x).countP (fun t => decide (t = TaskPhase.inflight)) + 1 =
        l.countP (fun t => decide (t = TaskPhase.inflight)) := by
  intro l
  induction l with
  | nil => intro i h; simp at h
  | cons y r ih =>
      intro i h
      cases i with
      | zero =>
          have hy : y = TaskPhase.inflight := by simpa using h
          subst hy
          simp [List.countP_cons, hx]
      | succ j =>
          have := ih j (by simpa using h)
          simp only [List.set, List.countP_cons]
          omega

/-- The permit-accounting invariant: in every reachable state of a run with
gate size `n`, the in-flight port calls and the free permits together
account for exactly the `n` permits, and the task list keeps its length. -/
theorem gate_invariant {n m : Nat} {s : GateState} (h : GateReach n m s) :
    inflightCount s + s.avail = n ∧ s.tasks.length = m := by
  induction h with
  | refl =>
      refine ⟨?_, by simp [initGate]⟩
      have hz : inflightCount (initGate n m) = 0 := by
        apply List.countP_eq_zero.mpr
        intro t ht
        have : t = TaskPhase.pending := List.eq_of_mem_replicate ht
        simp [this]
      rw [hz]
      simp [initGate]
  | tail _ hstep ih =>
      obtain ⟨hinv, hlen⟩ := ih
      cases hstep with
      | start i h ha =>
          have hc := countP_set_start _ i h
          refine ⟨?_, by simpa using hlen⟩
          simp only [inflightCount] at hinv ⊢
          simp only at hc ⊢
          omega
      | finishOk i h =>
          have hc := countP_set_finish TaskPhase.doneOk rfl _ i h
          refine ⟨?_, by simpa using hlen⟩
          simp only [inflightCount] at hinv ⊢
          simp only at hc ⊢
          omega
      | finishErr i h =>
          have hc := countP_set_finish TaskPhase.doneErr rfl _ i h
          refine ⟨?_, by simpa using hlen⟩
          simp only [inflightCount] at hinv ⊢
          simp only at hc ⊢
          omega

/-! ### A sequence of string leaves translates pointwise -/

theorem itemTasks_strings {E : Type} (f : String → String) :
    ∀ xs : List String,
      itemTasks (fun s => (Except.ok (f s) : Except E String)) (xs.map Json.str) =
        xs.map (fun s => (Except.ok (Json.str (f s)) : Except E Json)) := by
  intro xs
  induction xs with
  | nil => rfl
  | cons s rest ih => simp [itemTasks, translate, Except.map, ih]

theorem reassignItems_strings (g : String → Json) :
    ∀ xs : List String,
      reassignItems (xs.map Json.str) (xs.map g) = xs.map g := by
  intro xs
  induction xs with
  | nil => rfl
  | cons s rest ih => simp [reassignItems, ih]

/-- A list of string leaves maps to the list of their translations, in the
same order. -/
theorem tjo_arr_strings {E : Type} (f : String → String) (i : Nat)
    (xs : List String) :
    translate_json_object (fun s => (Except.ok (f s) : Except E String))
        (Json.arr i (xs.map Json.str)) =
      Except.ok (Json.arr i (xs.map (fun s => Json.str (f s)))) := by
  simp only [translate_json_object, itemTasks_strings f xs,
    gatherE_map_ok (fun s => Json.str (f s)) xs]
  simp only [Except.map]
  rw [reassignItems_strings]

/-- A helper to transport an observation that ignores leaf payloads along
skeleton equality of optional values. -/
theorem map_eq_of_skeleton_eq {α : Type} {g : Json → α}
    (hg : ∀ v, g (skeleton v) = g v) {o o' : Option Json}
    (h : o.map skeleton = o'.map skeleton) : o.map g = o'.map g := by
  cases o with
  | none =>
      cases o' with
      | none => rfl
      | some w => simp at h
  | some v =>
      cases o' with
      | none => simp at h
      | some w =>
          have hsk : skeleton v = skeleton w := by simpa using h
          have hgv : g v = g w := by rw [← hg v, hsk, hg w]
          simpa using hgv

/-! ## Witness fixtures: concrete stub ports and records -/

/-- A stub port that prefixes its input, standing for a successful French
translation; total and deterministic. -/
def frPort : String → Except String String :=
  fun s => Except.ok ("fr " ++ s)

/-- The uppercase stub of the spec's positional-correctness example,
tabulated on the inputs it is used with. -/
def upStub : String → String :=
  fun s => if s = "a" then "A" else if s = "b" then "B" else if s = "c" then "C" else s

/-- The uppercase stub as a total port. -/
def upPortS : String → Except String String :=
  fun s => Except.ok (upStub s)

/-- A port that fails on the text `"bad"` (a `PortFailure`) and succeeds on
everything else. -/
def failPort : String → Except String String :=
  fun s => if s = "bad" then Except.error "PortFailure" else Except.ok ("fr " ++ s)

/-- A nested sample record. -/
def sampleT : Json :=
  Json.obj 3 [("q", Json.str "hi"), ("n", Json.num 7),
    ("l", Json.arr 4 [Json.str "x", Json.bool true])]

/-- `sampleT` after translation by `frPort`. -/
def sampleU : Json :=
  Json.obj 3 [("q", Json.str "fr hi"), ("n", Json.num 7),
    ("l", Json.arr 4 [Json.str "fr x", Json.bool true])]

/-! ## The claims -/

/-- C1: for every input tree and every translation port, a tree returned by
`translate_json_object` has identical structure to the input: the same
variant at every position, the same key sets in the same order for
objects, and the same lengths in the same order for sequences (stated
via the payload-erasing `shape` and positionally via `getPath`). -/
theorem c1_shape_preservation {E : Type} (port : String → Except E String)
    (t u : Json) (h : translate_json_object port t = Except.ok u) :
    shape u = shape t ∧
    ∀ p : List PathStep,
      ((getPath u p).map variant = (getPath t p).map variant) ∧
      ((getPath u p).map keysOf = (getPath t p).map keysOf) ∧
      ((getPath u p).map lenOf = (getPath t p).map lenOf) := by
  have hsk := tjo_skeleton h
  refine ⟨by simp [shape, hsk], fun p => ?_⟩
  have htr := getPath_skeleton p u t hsk
  exact ⟨map_eq_of_skeleton_eq variant_skeleton htr,
    map_eq_of_skeleton_eq keysOf_skeleton htr,
    map_eq_of_skeleton_eq lenOf_skeleton htr⟩

/-- C1 witness: a concrete nested record under the stub port. -/
theorem c1_witness :
    translate_json_object frPort sampleT = Except.ok sampleU ∧
    shape sampleU = shape sampleT ∧
    (getPath sampleU [PathStep.key "l"]).map lenOf =
      (getPath sampleT [PathStep.key "l"]).map lenOf := by
  have hm : translate_json_object frPort sampleT = Except.ok sampleU := rfl
  exact ⟨hm, (c1_shape_preservation frPort sampleT sampleU hm).1,
    ((c1_shape_preservation frPort sampleT sampleU hm).2 [PathStep.key "l"]).2.2⟩

/-- C2: for a sequence of string leaves, the output at each position is the
translation of the input at that position, independently of the order in
which the event loop completes the gathered sub-tasks (`runSchedule` under
any completion permutation yields the submission-order results), and
`translate_json_object` returns exactly the pointwise translations in
input order. -/
theorem c2_positional (E : Type) (f : String → String) (xs : List String)
    (σ : List Nat) (i : Nat) (hperm : σ.Perm (List.range xs.length)) :
    runSchedule f xs σ = xs.map (fun s => some (f s)) ∧
    translate_json_object (fun s => (Except.ok (f s) : Except E String))
        (Json.arr i (xs.map Json.str)) =
      Except.ok (Json.arr i (xs.map (fun s => Json.str (f s)))) :=
  ⟨runSchedule_perm hperm, tjo_arr_strings f i xs⟩

/-- C2 witness: `["a","b","c"]` under the uppercase stub with the tasks
completing in reverse submission order still yields `["A","B","C"]`. -/
theorem c2_witness :
    ([2, 1, 0] : List Nat).Perm (List.range 3) ∧
    runSchedule upStub ["a", "b", "c"] [2, 1, 0] =
      [some "A", some "B", some "C"] ∧
    translate_json_object (fun s => (Except.ok (upStub s) : Except String String))
        (Json.arr 0 [Json.str "a", Json.str "b", Json.str "c"]) =
      Except.ok (Json.arr 0 [Json.str "A", Json.str "B", Json.str "C"]) := by
  have h := c2_positional String upStub ["a", "b", "c"] [2, 1, 0] 0 (by decide)
  exact ⟨by decide, h.1, h.2⟩

/-- C3: in every reachable state of a batch run — any number of leaf tasks,
from any records at any nesting depth, all sharing the one semaphore of
size `n` — the number of simultaneously in-flight port calls never
exceeds `n`. -/
theorem c3_gate_cap (n m : Nat) (s : GateState) (h : GateReach n m s) :
    inflightCount s ≤ n := by
  have := (gate_invariant h).1
  omega

/-- C3 witness: a tree with 50 leaves under a gate of size 4, after one
task acquired, stays within the cap. -/
theorem c3_witness :
    GateReach 4 50
      { avail := 3,
        tasks := (List.replicate 50 TaskPhase.pending).set 0 TaskPhase.inflight } ∧
    inflightCount
      { avail := 3,
        tasks := (List.replicate 50 TaskPhase.pending).set 0 TaskPhase.inflight } ≤ 4 := by
  have hreach : GateReach 4 50
      { avail := 3,
        tasks := (List.replicate 50 TaskPhase.pending).set 0 TaskPhase.inflight } :=
    Relation.ReflTransGen.single
      (GateStep.start (initGate 4 50) 0 (by decide) (by decide))
  exact ⟨hreach, c3_gate_cap 4 50 _ hreach⟩

/-- C7: permits are released on every exit path: once every leaf task has
finished — normally or by raising inside the guarded port call — all `n`
permits are back in the pool. -/
theorem c7_release (n m : Nat) (s : GateState) (h : GateReach n m s)
    (hdone : ∀ t ∈ s.tasks, t = TaskPhase.doneOk ∨ t = TaskPhase.doneErr) :
    s.avail = n := by
  have hinv := (gate_invariant h).1
  have hz : inflightCount s = 0 := by
    apply List.countP_eq_zero.mpr
    intro t ht
    rcases hdone t ht with h1 | h1 <;> simp [h1]
  omega

/-- C7 witness: one task, gate of size 1, whose port call fails: the permit
is back after the failure. -/
theorem c7_witness :
    GateReach 1 1 { avail := 1, tasks := [TaskPhase.doneErr] } ∧
    (∀ t ∈ [TaskPhase.doneErr], t = TaskPhase.doneOk ∨ t = TaskPhase.doneErr) ∧
    GateState.avail { avail := 1, tasks := [TaskPhase.doneErr] } = 1 := by
  have hreach : GateReach 1 1 { avail := 1, tasks := [TaskPhase.doneErr] } :=
    Relation.ReflTransGen.tail
      (Relation.ReflTransGen.single
        (GateStep.start (initGate 1 1) 0 (by decide) (by decide)))
      (GateStep.finishErr _ 0 (by decide))
  have hdone : ∀ t ∈ [TaskPhase.doneErr],
      t = TaskPhase.doneOk ∨ t = TaskPhase.doneErr := by
    intro t ht
    simp only [List.mem_singleton] at ht
    exact Or.inr ht
  exact ⟨hreach, hdone, c7_release 1 1 _ hreach hdone⟩

/-- C4: if the port call for any leaf of any selected record fails, the
whole batch fails — `main` raises instead of returning a list, and nothing
is persisted (`save_to_jsonl` is never reached). -/
theorem c4_failfast {E : Type} (port : String → Except E String)
    (records : List Json) (tasks : Nat) (limit : Int)
    (hfail : ∃ r ∈ selectedRecords records limit, ∃ e,
      translate_json_object port r = Except.error e) :
    (∃ e, main port records tasks limit = Except.error e) ∧
    savedOutput port records tasks limit = none := by
  obtain ⟨r, hr, e, he⟩ := hfail
  have hmem : Except.error e ∈
      (selectedRecords records limit).map (translate_json_object port) := by
    rw [← he]
    exact List.mem_map_of_mem _ hr
  obtain ⟨e', he'⟩ := gatherE_error_of_mem hmem
  have hm : main port records tasks limit = Except.error e' := he'
  exact ⟨⟨e', hm⟩, by simp [savedOutput, hm, Except.toOption]⟩

/-- The two records of the C4 witness batch; leaf `"bad"` of the first
record fails. -/
def recs4 : List Json :=
  [Json.obj 0 [("q", Json.str "ok"), ("a", Json.str "bad")],
   Json.obj 1 [("q", Json.str "x")]]

/-- C4 witness: a failing leaf in record 1 of 2 aborts the whole batch and
nothing is saved. -/
theorem c4_witness :
    (∃ r ∈ selectedRecords recs4 (-1), ∃ e,
      translate_json_object failPort r = Except.error e) ∧
    (∃ e, main failPort recs4 4 (-1) = Except.error e) ∧
    savedOutput failPort recs4 4 (-1) = none := by
  have hfail : ∃ r ∈ selectedRecords recs4 (-1), ∃ e,
      translate_json_object failPort r = Except.error e :=
    ⟨Json.obj 0 [("q", Json.str "ok"), ("a", Json.str "bad")],
      by simp [recs4, selectedRecords, effective_limit], "PortFailure", rfl⟩
  have h := c4_failfast failPort recs4 4 (-1) hfail
  exact ⟨hfail, h.1, h.2⟩

/-- C5: `main` submits exactly the first `min(k, length)` records for a
non-negative limit `k` (all records for `-1`), and on success returns, in
input order, exactly the translations of those records, the rest being
absent; with a total port the batch does succeed. -/
theorem c5_record_limit {E : Type} (port : String → Except E String)
    (records : List Json) (tasks : Nat) (k : Int) :
    (∀ out, main port records tasks k = Except.ok out →
      (0 ≤ k → out.length = min k.toNat records.length) ∧
      (k = -1 → out.length = records.length) ∧
      (∀ (i : Nat) (hi : i < out.length), ∃ hi' : i < records.length,
        translate_json_object port (records.get ⟨i, hi'⟩) =
          Except.ok (out.get ⟨i, hi⟩))) ∧
    ((∀ s, ∃ r, port s = Except.ok r) →
      ∃ out, main port records tasks k = Except.ok out) := by
  constructor
  · intro out hout
    have hlen0 := gatherE_length hout
    rw [List.length_map] at hlen0
    have hsel : (selectedRecords records k).length =
        min (effective_limit k records.length).toNat records.length := by
      simp [selectedRecords]
    refine ⟨?_, ?_, ?_⟩
    · intro hk
      have hne : ¬ k = -1 := by omega
      have he : effective_limit k records.length =
          min k (records.length : Int) := by
        simp [effective_limit, hne]
      rw [hlen0, hsel, he]
      omega
    · intro hk
      subst hk
      have he : effective_limit (-1) records.length = (records.length : Int) := by
        simp [effective_limit]
      rw [hlen0, hsel, he]
      omega
    · intro i hi
      have hi1 : i < (selectedRecords records k).length := by omega
      have hi' : i < records.length := by
        rw [hsel] at hi1
        omega
      refine ⟨hi', ?_⟩
      have hg := gatherE_get hout i (by simpa using hi1) hi
      rw [List.get_map] at hg
      have htake : (selectedRecords records k).get ⟨i, hi1⟩ =
          records.get ⟨i, hi'⟩ := by
        simp [selectedRecords, List.getElem_take]
      rw [htake] at hg
      exact hg
  · intro hp
    apply gatherE_ok_of_forall
    intro x hx
    obtain ⟨r, _, hxr⟩ := List.mem_map.mp hx
    obtain ⟨u, hu⟩ := tjo_total hp r
    exact ⟨u, by rw [← hxr, hu]⟩

/-- The four records of the C5 witness batch. -/
def recs5 : List Json :=
  [Json.obj 0 [("q", Json.str "a")], Json.obj 1 [("q", Json.str "b")],
   Json.num 5, Json.obj 2 [("q", Json.str "d")]]

/-- The first three records of `recs5`, translated by `frPort`. -/
def outC5 : List Json :=
  [Json.obj 0 [("q", Json.str "fr a")], Json.obj 1 [("q", Json.str "fr b")],
   Json.num 5]

/-- C5 witness: 4 records with limit 3 return exactly the first 3, in
order, translated; the fourth is absent. -/
theorem c5_witness :
    (0 : Int) ≤ 3 ∧
    main frPort recs5 7 3 = Except.ok outC5 ∧
    outC5.length = min ((3 : Int)).toNat recs5.length ∧
    (∃ out, main frPort recs5 7 3 = Except.ok out) := by
  have hm : main frPort recs5 7 3 = Except.ok outC5 := rfl
  have h := c5_record_limit frPort recs5 7 3
  exact ⟨by decide, hm, (h.1 outC5 hm).1 (by decide),
    h.2 (fun s => ⟨"fr " ++ s, rfl⟩)⟩

/-- C6: every non-string scalar of the input appears value-identical at
the corresponding position of the output, and no port call or gate
interaction is made for it: the traversal's events are exactly one
acquire/call/release triple per dispatched string leaf, and (for
well-formed records) every dispatched text is a string leaf of the tree. -/
theorem c6_opaque_frame {E : Type} (port : String → Except E String)
    (t u : Json) (h : translate_json_object port t = Except.ok u) :
    (∀ (p : List PathStep) (v : Json), getPath t p = some v →
      isOpaque v = true → getPath u p = some v) ∧
    traversalEvents t = ((leafTexts t).map translateEvents).flatten ∧
    (wfKeys t = true → ∀ s ∈ leafTexts t, ∃ p, getPath t p = some (Json.str s)) :=
  ⟨fun _ _ hp hv => tjo_opaque h hp hv, traversalEvents_eq t,
    fun hwf => leafTexts_path hwf⟩

/-- C6 witness: the number 5 sits untouched at key `"n"` of the output,
and the only port traffic of the record is for its one string leaf. -/
theorem c6_witness :
    translate_json_object frPort
        (Json.obj 2 [("n", Json.num 5), ("q", Json.str "a")]) =
      Except.ok (Json.obj 2 [("n", Json.num 5), ("q", Json.str "fr a")]) ∧
    getPath (Json.obj 2 [("n", Json.num 5), ("q", Json.str "fr a")])
        [PathStep.key "n"] = some (Json.num 5) ∧
    traversalEvents (Json.obj 2 [("n", Json.num 5), ("q", Json.str "a")]) =
      ((leafTexts (Json.obj 2 [("n", Json.num 5), ("q", Json.str "a")])).map
        translateEvents).flatten := by
  have hm : translate_json_object frPort
      (Json.obj 2 [("n", Json.num 5), ("q", Json.str "a")]) =
      Except.ok (Json.obj 2 [("n", Json.num 5), ("q", Json.str "fr a")]) := rfl
  have h := c6_opaque_frame frPort _ _ hm
  exact ⟨hm, h.1 [PathStep.key "n"] (Json.num 5) rfl rfl, h.2.1⟩

/-- C8 counterexample: the claim says a record whose entire top-level value
is a bare string is translated through the gate; but
`translate_json_object` only checks `isinstance(obj, dict)` and
`isinstance(obj, list)` (lines 42, 60) and returns anything else unchanged
(line 76): on the bare string `"a"` under the uppercase stub it returns
`"a"` (not the translation `"A"`) and generates no gate or port event. -/
theorem c8_counterexample :
    translate_json_object upPortS (Json.str "a") = Except.ok (Json.str "a") ∧
    upPortS "a" = Except.ok "A" ∧
    Json.str "a" ≠ Json.str "A" ∧
    traversalEvents (Json.str "a") = [] := by
  refine ⟨rfl, rfl, ?_, rfl⟩
  intro hcon
  injection hcon with hs
  exact absurd hs (by decide)

/-- C8 (amended): a string leaf occurring as an object entry or a sequence
item is dispatched through the gate-guarded `translate` call (one
acquire, one port call on its text, one release) and replaced by the
port's translation; a record whose entire top-level value is a bare
string, however, is returned unchanged with no gate interaction and no
port call. -/
theorem c8_amended_leaf {E : Type} (port : String → Except E String)
    (s k : String) (i : Nat) (r : String) :
    translate_json_object port (Json.str s) = Except.ok (Json.str s) ∧
    traversalEvents (Json.str s) = [] ∧
    (port s = Except.ok r →
      translate_json_object port (Json.obj i [(k, Json.str s)]) =
        Except.ok (Json.obj i [(k, Json.str r)]) ∧
      translate_json_object port (Json.arr i [Json.str s]) =
        Except.ok (Json.arr i [Json.str r]) ∧
      traversalEvents (Json.obj i [(k, Json.str s)]) =
        [PortEvent.acquire, PortEvent.call s, PortEvent.release]) := by
  refine ⟨rfl, rfl, fun hp => ⟨?_, ?_, rfl⟩⟩
  · simp [translate_json_object, entryTasks, translate, hp, Except.map,
      gatherE, reassignEntries]
  · simp [translate_json_object, itemTasks, translate, hp, Except.map,
      gatherE, reassignItems]

/-- C8 witness: leaf `"a"` as a dict value is translated to `"A"` through
one acquire/call/release; the same string at top level passes through. -/
theorem c8_witness :
    upPortS "a" = Except.ok "A" ∧
    translate_json_object upPortS (Json.obj 0 [("q", Json.str "a")]) =
      Except.ok (Json.obj 0 [("q", Json.str "A")]) ∧
    traversalEvents (Json.obj 0 [("q", Json.str "a")]) =
      [PortEvent.acquire, PortEvent.call "a", PortEvent.release] ∧
    translate_json_object upPortS (Json.str "a") = Except.ok (Json.str "a") := by
  have h := c8_amended_leaf upPortS "a" "q" 0 "A"
  exact ⟨rfl, (h.2.2 rfl).1, (h.2.2 rfl).2.2, h.1⟩

/-- C9 counterexample: the claim says `translate_json_object` rebuilds a
new `Object` and leaves its input unmodified; but the code assigns
`obj[key] = ...` into the dict it was given and returns that same dict
(lines 53-59, 76).  In the identity-carrying embedding the returned root
keeps the input's node identity (id 7 — no new object), and the value it
holds afterwards differs from the input's original value — the caller's
tree has been modified. -/
theorem c9_counterexample :
    translate_json_object frPort (Json.obj 7 [("q", Json.str "a")]) =
      Except.ok (Json.obj 7 [("q", Json.str "fr a")]) ∧
    nodeId (Json.obj 7 [("q", Json.str "fr a")]) =
      nodeId (Json.obj 7 [("q", Json.str "a")]) ∧
    Json.obj 7 [("q", Json.str "fr a")] ≠ Json.obj 7 [("q", Json.str "a")] := by
  refine ⟨rfl, rfl, ?_⟩
  intro hcon
  injection hcon with hi hes
  injection hes with hkv
  injection hkv with hk hv
  injection hv with hs
  exact absurd hs (by decide)

/-- C9 (amended): `translate_json_object` returns the very containers it
was given, updated in place: the output has the same node identities and
the same structure as the input at every node (no new `Object` or
`Sequence` is built), with only string-leaf contents overwritten — so
after the call the input tree holds the translated values. -/
theorem c9_amended_inplace {E : Type} (port : String → Except E String)
    (t u : Json) (h : translate_json_object port t = Except.ok u) :
    skeleton u = skeleton t ∧ nodeId u = nodeId t := by
  have hsk := tjo_skeleton h
  refine ⟨hsk, ?_⟩
  have := congrArg nodeId hsk
  rwa [nodeId_skeleton, nodeId_skeleton] at this

/-- C9 witness: the concrete record keeps its root identity and skeleton. -/
theorem c9_witness :
    translate_json_object frPort (Json.obj 7 [("q", Json.str "a")]) =
      Except.ok (Json.obj 7 [("q", Json.str "fr a")]) ∧
    skeleton (Json.obj 7 [("q", Json.str "fr a")]) =
      skeleton (Json.obj 7 [("q", Json.str "a")]) ∧
    nodeId (Json.obj 7 [("q", Json.str "fr a")]) =
      nodeId (Json.obj 7 [("q", Json.str "a")]) := by
  have hm : translate_json_object frPort (Json.obj 7 [("q", Json.str "a")]) =
      Except.ok (Json.obj 7 [("q", Json.str "fr a")]) := rfl
  have h := c9_amended_inplace frPort _ _ hm
  exact ⟨hm, h.1, h.2⟩

/-- C10: for any limit strictly below `-1` the effective limit
`min(limit, len)` is negative, so `range(effective_limit)` is empty: no
record is selected, no port call or gate interaction happens, and the
batch returns the empty list — only exactly `-1` means "unlimited". -/
theorem c10_negative_limit {E : Type} (port : String → Except E String)
    (records : List Json) (tasks : Nat) (limit : Int) (h : limit < -1) :
    selectedRecords records limit = [] ∧
    main port records tasks limit = Except.ok [] ∧
    batchEvents records limit = [] := by
  have hsel : selectedRecords records limit = [] := by
    have h1 : min limit (records.length : Int) ≤ limit := min_le_left _ _
    have h2 : (effective_limit limit records.length).toNat = 0 := by
      have hne : ¬ limit = -1 := by omega
      simp only [effective_limit, if_neg hne]
      exact Int.toNat_of_nonpos (by omega)
    simp [selectedRecords, h2]
  have hmain : main port records tasks limit = Except.ok [] := by
    show gatherE ((selectedRecords records limit).map
      (translate_json_object port)) = Except.ok []
    rw [hsel]
    rfl
  exact ⟨hsel, hmain, by simp [batchEvents, hsel]⟩

/-- C10 witness: limit `-2` over a nonempty batch selects nothing, calls
nothing, returns the empty list. -/
theorem c10_witness :
    (-2 : Int) < -1 ∧
    selectedRecords [Json.obj 0 [("q", Json.str "a")]] (-2) = [] ∧
    main frPort [Json.obj 0 [("q", Json.str "a")]] 8 (-2) = Except.ok [] ∧
    batchEvents [Json.obj 0 [("q", Json.str "a")]] (-2) = [] := by
  have h := c10_negative_limit frPort [Json.obj 0 [("q", Json.str "a")]] 8 (-2)
    (by decide)
  exact ⟨by decide, h.1, h.2.1, h.2.2⟩

end GSM
